import Mathlib

/-!
Verification development for the SymphCord sonification pipeline.

The Python sources `bot/music/note_mapper.py`, `bot/music/synthesis.py` and
`bot/music/types.py` are shallowly embedded below.  Machine floats become
exact rationals (`ℚ`), Python ints become `ℤ`/`ℕ`, strings become `List Char`
with ASCII models of the `str` predicates the code uses, and the two
irrational frequency formulas (`440 * 2^((m-69)/12)` in `midi_to_frequency`
and `2^(shift/12)` in `_harmonic_from`) are abstracted into a `FreqModel`
parameter, since no verified property depends on concrete frequency values.
-/

/-! ## Python string/char model (ASCII fragment used by the sources) -/

/-- ASCII model of Python `str.isupper` on a single character. -/
def pyIsUpper (c : Char) : Bool :=
  65 ≤ c.toNat && c.toNat ≤ 90

/-- ASCII model of membership in Python `string.punctuation`,
which is exactly the ASCII codes 33-47, 58-64, 91-96 and 123-126. -/
def pyIsPunct (c : Char) : Bool :=
  (33 ≤ c.toNat && c.toNat ≤ 47) ||
  (58 ≤ c.toNat && c.toNat ≤ 64) ||
  (91 ≤ c.toNat && c.toNat ≤ 96) ||
  (123 ≤ c.toNat && c.toNat ≤ 126)

/-- ASCII model of Python `str.isalnum` on a single character. -/
def pyIsAlnum (c : Char) : Bool :=
  (48 ≤ c.toNat && c.toNat ≤ 57) ||
  (65 ≤ c.toNat && c.toNat ≤ 90) ||
  (97 ≤ c.toNat && c.toNat ≤ 122)

/-- ASCII model of the whitespace stripped by Python `str.strip`:
tab, newline, vertical tab, form feed, carriage return, space. -/
def pyIsSpace (c : Char) : Bool :=
  (9 ≤ c.toNat && c.toNat ≤ 13) || c.toNat = 32

/-- ASCII model of Python `str.lower` on a single character code. -/
def pyLowerCode (n : ℕ) : ℕ :=
  if 65 ≤ n ∧ n ≤ 90 then n + 32 else n

/-- Model of Python `c in "aeiou"` applied after `str.lower`
(used for the vowel bonus in `_content_pitch_index`). -/
def pyIsVowelLower (c : Char) : Bool :=
  let n := pyLowerCode c.toNat
  n = 97 || n = 101 || n = 105 || n = 111 || n = 117

/-- Model of Python `str.strip`: drop leading and trailing whitespace. -/
def pyStrip (l : List Char) : List Char :=
  ((l.dropWhile pyIsSpace).reverse.dropWhile pyIsSpace).reverse

/-- Model of Python `round` on an exact rational: round to the nearest
integer, ties to the even integer (banker's rounding). -/
def pyRound (x : ℚ) : ℤ :=
  let f := ⌊x⌋
  let r := x - f
  if r < 1/2 then f
  else if 1/2 < r then f + 1
  else if f % 2 = 0 then f else f + 1

/-- Model of Python `min(iterable, key=...)` on a nonempty list:
the first element attaining the minimal key. -/
def pyMinBy {α β : Type} [LinearOrder β] (key : α → β) (head : α) (tail : List α) : α :=
  tail.foldl (fun acc c => if key c < key acc then c else acc) head

/-- Model of Python `max(iterable)` of rationals on a nonempty list. -/
def pyListMax (head : ℚ) (tail : List ℚ) : ℚ :=
  tail.foldl max head

/-! ## Data model (`bot/music/types.py`) -/

/-- The `InstrumentWave` enum from `types.py`. -/
inductive InstrumentWave : Type
  | SINE | SQUARE | SAWTOOTH | TRIANGLE | WARM | BELL
  | PULSE | GLOW | HARP | CELESTA | CHOIR
deriving DecidableEq, Repr

/-- The `NoteEvent` dataclass from `types.py`; floats become exact `ℚ`. -/
structure NoteEvent : Type where
  start : ℚ
  duration : ℚ
  frequency : ℚ
  amplitude : ℚ
  instrument : InstrumentWave
deriving DecidableEq, Repr

/-- A `discord.Message` restricted to the attributes the pipeline reads:
`content`, `author.id`, `author.bot`, `webhook_id`, `is_system()` and
`created_at` (as seconds, exact). -/
structure Message : Type where
  content : List Char
  authorId : ℕ
  authorBot : Bool
  webhookId : Option ℕ
  isSystem : Bool
  createdAt : ℚ
deriving DecidableEq, Repr

/-- Abstraction of the two irrational frequency maps of `note_mapper.py`:
`midiFreq m` stands for `440 * 2^((m - 69)/12)` (`midi_to_frequency`) and
`semitoneFactor s` for `2^(s/12)` (`_harmonic_from`).  All theorems hold
for every such table. -/
structure FreqModel : Type where
  midiFreq : ℤ → ℚ
  semitoneFactor : ℤ → ℚ

/-! ## Note mapper (`bot/music/note_mapper.py`) -/

/-- `MAJOR_SCALE_STEPS = (0, 2, 4, 7, 9, 11)`. -/
def MAJOR_SCALE_STEPS : List ℤ := [0, 2, 4, 7, 9, 11]

/-- `ROOT_MIDI = 62`. -/
def ROOT_MIDI : ℤ := 62

/-- `SCALE_MIDI_NOTES`: three octaves of the scale steps above `ROOT_MIDI`. -/
def SCALE_MIDI_NOTES : List ℤ :=
  ((List.range 3).map fun octave =>
    MAJOR_SCALE_STEPS.map fun step => ROOT_MIDI + (octave : ℤ) * 12 + step).flatten

/-- `_caps_and_punct_weight`: uppercase (weighted 1.2) plus punctuation
fraction of the text, clamped to at most 1. -/
def _caps_and_punct_weight (text : List Char) : ℚ :=
  if text.isEmpty then 0
  else
    let caps : ℕ := (text.filter pyIsUpper).length
    let punct : ℕ := (text.filter pyIsPunct).length
    let weighted : ℚ := ((caps : ℚ) * (6/5) + (punct : ℚ)) / ((max text.length 1 : ℕ) : ℚ)
    min weighted 1

/-- `_select_instrument`: palette indexed by `author.id` modulo 6. -/
def _select_instrument (authorId : ℕ) : InstrumentWave :=
  let palette := [InstrumentWave.WARM, InstrumentWave.SINE, InstrumentWave.BELL,
    InstrumentWave.GLOW, InstrumentWave.HARP, InstrumentWave.CELESTA]
  palette.getD (authorId % palette.length) InstrumentWave.WARM

/-- `_content_pitch_index`: midpoint of the scale table when no alphanumeric
characters remain, otherwise (ascii sum + 3 * vowel count) modulo the table
length. -/
def _content_pitch_index (content : List Char) : ℕ :=
  let filtered := content.filter pyIsAlnum
  if filtered.isEmpty then SCALE_MIDI_NOTES.length / 2
  else
    let asciiSum := (filtered.map Char.toNat).sum
    let vowelBonus := (filtered.filter pyIsVowelLower).length * 3
    (asciiSum + vowelBonus) % SCALE_MIDI_NOTES.length

/-- `_smooth_pitch_index`: pull the raw index toward the previous one,
wrapping candidates by one table length, clamping into the table, then
clamping the step to at most 2 positions.  Python `abs` on ints is
modelled with `Int.natAbs`. -/
def _smooth_pitch_index (base_idx : ℤ) (previous_idx : Option ℤ) : ℤ :=
  match previous_idx with
  | none => base_idx
  | some prev =>
    let total : ℤ := (SCALE_MIDI_NOTES.length : ℤ)
    let closest0 := pyMinBy (fun v => (v - prev).natAbs) base_idx
      [base_idx + total, base_idx - total]
    let closest := max 0 (min (total - 1) closest0)
    if 2 < (closest - prev).natAbs then
      if prev < closest then min (prev + 2) (total - 1) else max (prev - 2) 0
    else closest

/-- `_quantize`: snap a nonpositive delta to 0, otherwise round the delta to
the nearest whole number of beats. -/
def _quantize (delta_seconds beat : ℚ) : ℚ :=
  if delta_seconds ≤ 0 then 0
  else (pyRound (delta_seconds / beat) : ℚ) * beat

/-- `_note_duration`: `beat` for empty stripped content, otherwise
`beat * 1.1` plus a length-based stretch capped at `beat * 3`. -/
def _note_duration (message : Message) (beat : ℚ) : ℚ :=
  let length := (pyStrip message.content).length
  if length ≤ 0 then beat
  else
    let max_extra := beat * 3
    let stretch_factor := min ((length : ℚ) / 95) 1
    beat * (11/10) + stretch_factor * max_extra

/-- `_message_to_note`: map one message to its primary note, returning the
note, the smoothed pitch index and the chosen start (the carried state). -/
def _message_to_note (fm : FreqModel) (message : Message)
    (first_timestamp beat : ℚ) (previous_idx : Option ℤ)
    (previous_start : Option ℚ) : NoteEvent × ℤ × ℚ :=
  let content := pyStrip message.content
  let base_idx : ℤ := (_content_pitch_index content : ℤ)
  let midi_idx := _smooth_pitch_index base_idx previous_idx
  let midi_note := SCALE_MIDI_NOTES.getD midi_idx.toNat 0
  let frequency := fm.midiFreq midi_note
  let intensity := _caps_and_punct_weight content
  let amplitude := 28/100 + intensity * (28/100)
  let instrument := _select_instrument message.authorId
  let delta := message.createdAt - first_timestamp
  let raw_start := _quantize (max delta 0) beat
  let start :=
    match previous_start with
    | none => raw_start
    | some prev =>
      let previous_beats := prev / beat
      let raw_beats := raw_start / beat
      let min_gap_beats : ℚ := 1
      let max_gap_beats : ℚ := 5/2
      let start_beats0 := max raw_beats (previous_beats + min_gap_beats)
      let start_beats :=
        if max_gap_beats < start_beats0 - previous_beats
        then previous_beats + max_gap_beats
        else start_beats0
      start_beats * beat
  let note : NoteEvent :=
    { start := start
      duration := _note_duration message beat
      frequency := frequency
      amplitude := min amplitude (9/10)
      instrument := instrument }
  (note, midi_idx, start)

/-- `_harmonic_from`: shifted-copy harmonic of a note. -/
def _harmonic_from (fm : FreqModel) (note : NoteEvent) (semitone_shift : ℤ)
    (amplitude_scale : ℚ) (instrument : InstrumentWave) : NoteEvent :=
  { start := note.start
    duration := note.duration * (11/10)
    frequency := note.frequency * fm.semitoneFactor semitone_shift
    amplitude := min (note.amplitude * amplitude_scale) (55/100)
    instrument := instrument }

/-- `_nearest_scale_frequency`: scale frequency closest to the target
(first minimum, as Python `min`). -/
def _nearest_scale_frequency (fm : FreqModel) (target : ℚ) : ℚ :=
  match SCALE_MIDI_NOTES.map fm.midiFreq with
  | [] => 0
  | h :: t => pyMinBy (fun freq => |freq - target|) h t

/-- The filler-note construction from the body of `_fill_gaps`: `some` filler
exactly when the start gap between the consecutive pair exceeds `1.4 * beat`. -/
def _gap_filler (fm : FreqModel) (beat : ℚ) (prev curr : NoteEvent) :
    Option NoteEvent :=
  let gap := curr.start - prev.start
  if beat * (7/5) < gap then
    let earliest := prev.start + beat * (35/100)
    let latest := curr.start - beat * (35/100)
    let insert_start := min (max (prev.start + gap * (55/100)) earliest) latest
    let duration0 := min (curr.start - insert_start) (beat * (9/10))
    let duration := max duration0 (beat * (45/100))
    let blended := prev.frequency * (45/100) + curr.frequency * (55/100)
    some
      { start := insert_start
        duration := duration
        frequency := _nearest_scale_frequency fm blended
        amplitude := min (max prev.amplitude curr.amplitude * (45/100)) (45/100)
        instrument := InstrumentWave.GLOW }
  else none

/-- The pair-walking loop of `_fill_gaps`: for each consecutive pair, emit the
filler (when any) followed by the current note. -/
def _fill_gaps_loop (fm : FreqModel) (beat : ℚ) :
    NoteEvent → List NoteEvent → List NoteEvent
  | _, [] => []
  | prev, curr :: rest =>
    (match _gap_filler fm beat prev curr with
     | some filler => [filler]
     | none => []) ++ curr :: _fill_gaps_loop fm beat curr rest

/-- `_fill_gaps`: seed with the first note, walk consecutive pairs inserting
fillers, and sort the result by start (Python `sorted` is a stable sort). -/
def _fill_gaps (fm : FreqModel) (notes : List NoteEvent) (beat : ℚ) :
    List NoteEvent :=
  match notes with
  | [] => []
  | h :: t =>
    (h :: _fill_gaps_loop fm beat h t).mergeSort fun a b => a.start ≤ b.start

/-- `_background_pad`: a root-frequency pad plus one-octave-up shimmer and
one-octave-down choir covering the whole track (`2^(12/12) = 2` and
`2^(-12/12) = 1/2` exactly). -/
def _background_pad (notes : List NoteEvent) : List NoteEvent :=
  match notes with
  | [] => []
  | h :: t =>
    let track_end := pyListMax (h.start + h.duration)
      (t.map fun n => n.start + n.duration)
    let root_note := pyMinBy (fun n => n.frequency) h t
    let pad_frequency := root_note.frequency
    let pad_duration := track_end + 3/2
    let pad : NoteEvent :=
      { start := 0, duration := pad_duration, frequency := pad_frequency
        amplitude := 16/100, instrument := InstrumentWave.WARM }
    let shimmer : NoteEvent :=
      { start := 0, duration := pad_duration, frequency := pad_frequency * 2
        amplitude := pad.amplitude * (45/100), instrument := InstrumentWave.CELESTA }
    let choir : NoteEvent :=
      { start := 0, duration := pad_duration, frequency := pad_frequency * (1/2)
        amplitude := pad.amplitude * (40/100), instrument := InstrumentWave.CHOIR }
    [pad, shimmer, choir]

/-- Python truthiness of an optional integer attribute (`if msg.webhook_id:`). -/
def pyTruthy : Option ℕ → Bool
  | none => false
  | some w => w ≠ 0

/-- The message filter at the top of `notes_from_messages`: keep messages with
nonempty content whose author is not a bot, that carry no webhook id and are
not system messages. -/
def _keeps (m : Message) : Bool :=
  !m.content.isEmpty && !m.authorBot && !pyTruthy m.webhookId && !m.isSystem

/-- The primary-line fold of `notes_from_messages`: map each message to its
note, threading the previous pitch index and previous start. -/
def _primary_line (fm : FreqModel) (beat first_timestamp : ℚ) :
    Option ℤ → Option ℚ → List Message → List NoteEvent
  | _, _, [] => []
  | previous_idx, previous_start, m :: rest =>
    let r := _message_to_note fm m first_timestamp beat previous_idx previous_start
    r.1 :: _primary_line fm beat first_timestamp (some r.2.1) (some r.2.2) rest

/-- The harmonic-layering loop of `notes_from_messages`: every primary note is
followed by a +4 semitone celesta harmonic, every even-indexed note by a +7
sine harmonic and every third note by a +12 glow harmonic. -/
def _layered (fm : FreqModel) (events : List NoteEvent) : List NoteEvent :=
  events.enum.flatMap fun p =>
    [p.2, _harmonic_from fm p.2 4 (45/100) InstrumentWave.CELESTA]
    ++ (if p.1 % 2 = 0 then [_harmonic_from fm p.2 7 (34/100) InstrumentWave.SINE] else [])
    ++ (if p.1 % 3 = 0 then [_harmonic_from fm p.2 12 (24/100) InstrumentWave.GLOW] else [])

/-- `notes_from_messages`: filter, sort by timestamp, fold into the primary
line, layer harmonics, fill gaps and append the background pads. -/
def notes_from_messages (fm : FreqModel) (messages : List Message)
    (beat : ℚ := 11/20) : List NoteEvent :=
  let filtered := messages.filter _keeps
  if filtered.isEmpty then []
  else
    let sorted := filtered.mergeSort fun a b => a.createdAt ≤ b.createdAt
    let first_timestamp := (sorted.headD ⟨[], 0, false, none, false, 0⟩).createdAt
    let events := _primary_line fm beat first_timestamp none none sorted
    let layered0 := _layered fm events
    let layered := _fill_gaps fm layered0 beat
    layered ++ _background_pad layered

/-! ## Synthesizer glue (`bot/music/synthesis.py`) -/

/-- The `max(note.start + note.duration for ...)` computation used by
`_scale_events` for both `base_length` and `final_length` (0 for an empty
list; the source only evaluates it on nonempty lists). -/
def _span_max : List NoteEvent → ℚ
  | [] => 0
  | h :: t => pyListMax (h.start + h.duration) (t.map fun n => n.start + n.duration)

/-- The note comprehension body of `_scale_events`: multiply `start` and
`duration` by the scale factor, keep `frequency`, `amplitude` and
`instrument`. -/
def scaleNote (scale : ℚ) (note : NoteEvent) : NoteEvent :=
  { start := note.start * scale
    duration := note.duration * scale
    frequency := note.frequency
    amplitude := note.amplitude
    instrument := note.instrument }

/-- `_scale_events`: uniform time scaling of the events so that the total
length lands at `base_length` clamped into `[min_duration, max_duration]`;
returns the scaled events and the resulting final length. -/
def _scale_events (events : List NoteEvent) (min_duration max_duration : ℚ) :
    List NoteEvent × ℚ :=
  match events with
  | [] => ([], 0)
  | h :: t =>
    let event_list := h :: t
    let base_length0 := _span_max event_list
    let base_length := if base_length0 ≤ 0 then min_duration else base_length0
    let target0 := max min_duration (min base_length max_duration)
    let target :=
      if base_length < min_duration ∨ max_duration < base_length
      then max min_duration (min max_duration base_length)
      else target0
    let scale := if base_length = 0 then 1 else target / base_length
    let scaled_events := event_list.map (scaleNote scale)
    (scaled_events, _span_max scaled_events)

/-- The distinct "no notes" failure of `render_notes_to_wav`
(`ValueError("No events to render.")`). -/
inductive RenderError : Type
  | noEvents
deriving DecidableEq, Repr

/-- Which backend produced the audio in the control-flow model of
`render_notes_to_wav`. -/
inductive RenderedVia : Type
  | soundfont
  | oscillator
deriving DecidableEq, Repr

/-- Control-flow model of `render_notes_to_wav`: audio buffers are abstracted
away.  `sampler_configured` models `_SOUNDFONT_PATH and pretty_midi and np is
not None`; `sampler_ok` models whether the `_render_with_soundfont` call
returns normally (`false` = it raises some `Exception`, which the source
catches with a bare `except Exception` and falls through to the oscillator
path). -/
def render_notes_to_wav (events : List NoteEvent)
    (min_duration max_duration : ℚ)
    (sampler_configured sampler_ok : Bool) :
    Except RenderError (RenderedVia × ℚ) :=
  let r := _scale_events events min_duration max_duration
  if r.1.isEmpty then Except.error RenderError.noEvents
  else if sampler_configured && sampler_ok then
    Except.ok (RenderedVia.soundfont, r.2)
  else
    Except.ok (RenderedVia.oscillator, r.2)

/-- The gain chosen by the post-processing block at the end of
`render_notes_to_wav`, at the dB level: `peak` is `output.max_dBFS`, with
`none` standing for `-∞` (a silent buffer).  A finite peak below `-1.5` dBFS
is raised by `-1.5 - peak`, a finite peak at or above `-1.5` is untouched,
and a silent buffer gets a fixed `+6` dB. -/
def _normalize_gain (peak : Option ℚ) : ℚ :=
  match peak with
  | some p => if p < -(3/2) then -(3/2) - p else 0
  | none => 6

/-- Peak level after the post-processing gain: applying a uniform gain of
`g` dB shifts a finite peak by exactly `g`; a silent buffer stays silent. -/
def _normalized_peak (peak : Option ℚ) : Option ℚ :=
  peak.map fun p => p + _normalize_gain (some p)

/-! ## Shared concrete instances for instantiating theorems -/

/-- A concrete frequency table for instantiating theorems on explicit inputs. -/
def fmW : FreqModel := ⟨fun _ => 440, fun _ => 1⟩

/-! ## C1: peak post-processing -/

/-- C1 (counterexample): at a finite pre-normalization peak of `0` dBFS
(louder than `-1.5`), the post-processing leaves the peak at `0` dBFS, which
is not at most `-1.5` dBFS — the block never attenuates. -/
theorem C1_claim_counterexample :
    _normalized_peak (some 0) = some 0 ∧ ¬ ((0 : ℚ) ≤ -(3/2)) := by
  constructor
  · norm_num [_normalized_peak, _normalize_gain]
  · norm_num

/-- C1 (amended): the post-processing block raises a finite peak below
`-1.5` dBFS to exactly `-1.5` dBFS, leaves a finite peak at or above `-1.5`
dBFS unchanged (so the result is `max peak (-1.5)`), and applies a fixed
`+6` dB gain to a silent buffer. -/
theorem C1_peak_normalization (p : ℚ) :
    _normalized_peak (some p) = some (max p (-(3/2))) ∧ _normalize_gain none = 6 := by
  refine ⟨?_, rfl⟩
  have h1 : _normalize_gain (some p) = if p < -(3/2) then -(3/2) - p else 0 := rfl
  have h2 : _normalized_peak (some p) = some (p + _normalize_gain (some p)) := rfl
  rw [h2, h1]
  rcases lt_or_le p (-(3/2)) with h | h
  · rw [if_pos h, max_eq_right h.le]
    congr 1
    ring
  · rw [if_neg (not_lt.mpr h), max_eq_left h]
    congr 1
    ring

/-! ## C3: pitch smoothing step bound -/

/-- C3: for any previous index inside the scale table and any raw base
index, the smoothed index differs from the previous index by at most 2
table positions. -/
theorem C3_smooth_step_bound (base prev : ℤ) (h0 : 0 ≤ prev)
    (h1 : prev ≤ (SCALE_MIDI_NOTES.length : ℤ) - 1) :
    |_smooth_pitch_index base (some prev) - prev| ≤ 2 := by
  have hlen : SCALE_MIDI_NOTES.length = 18 := by decide
  simp only [_smooth_pitch_index, pyMinBy, List.foldl_cons, List.foldl_nil, hlen] at *
  rw [abs_le]
  split_ifs at * <;> omega

/-- C3 (witness): the bound holds at base index 9 and previous index 0. -/
theorem C3_smooth_step_bound_witness :
    |_smooth_pitch_index 9 (some 0) - 0| ≤ 2 :=
  C3_smooth_step_bound 9 0 (by decide) (by decide)

/-! ## C5: render dispatch and sampler fallback -/

/-- C5: the render signals the distinct "no notes" failure exactly when the
scaled note list is empty (equivalently, when the input note list is empty),
and when the sampler path fails (`sampler_ok = false`) the failure is caught
internally and rendering falls back to the oscillator path, never surfacing
a sampler error to the caller. -/
theorem C5_render_dispatch (events : List NoteEvent) (min_d max_d : ℚ)
    (cfg ok : Bool) :
    ((render_notes_to_wav events min_d max_d cfg ok =
        Except.error RenderError.noEvents) ↔
      (_scale_events events min_d max_d).1 = []) ∧
    ((_scale_events events min_d max_d).1 = [] ↔ events = []) ∧
    render_notes_to_wav events min_d max_d cfg false =
      (if (_scale_events events min_d max_d).1 = []
       then Except.error RenderError.noEvents
       else Except.ok (RenderedVia.oscillator, (_scale_events events min_d max_d).2)) := by
  refine ⟨?_, ?_, ?_⟩
  · cases cfg <;> cases ok <;>
      rcases h : (_scale_events events min_d max_d).1 with _ | ⟨a, l⟩ <;>
        simp [render_notes_to_wav, h]
  · cases events with
    | nil => simp [_scale_events]
    | cons a l => simp [_scale_events]
  · cases cfg <;>
      rcases h : (_scale_events events min_d max_d).1 with _ | ⟨a, l⟩ <;>
        simp [render_notes_to_wav, h]

/-! ## C2: primary line length and rhythmic spacing -/

/-- The primary note's recorded `start` field is exactly the carried
`start` state returned by `_message_to_note`. -/
lemma message_note_start_eq (fm : FreqModel) (m : Message) (ft beat : ℚ)
    (pIdx : Option ℤ) (pStart : Option ℚ) :
    (_message_to_note fm m ft beat pIdx pStart).1.start =
      (_message_to_note fm m ft beat pIdx pStart).2.2 := rfl

/-- With a previous start `s`, the start chosen by `_message_to_note` is
between `s + beat` and `s + 2.5 * beat`. -/
lemma message_note_gap (fm : FreqModel) (m : Message) (ft beat : ℚ)
    (hb : 0 < beat) (pIdx : Option ℤ) (s : ℚ) :
    beat ≤ (_message_to_note fm m ft beat pIdx (some s)).2.2 - s ∧
    (_message_to_note fm m ft beat pIdx (some s)).2.2 - s ≤ (5/2) * beat := by
  have hbne : beat ≠ 0 := ne_of_gt hb
  have hst : (_message_to_note fm m ft beat pIdx (some s)).2.2 =
      (if (5/2 : ℚ) <
          max (_quantize (max (m.createdAt - ft) 0) beat / beat) (s / beat + 1) - s / beat
       then s / beat + 5/2
       else max (_quantize (max (m.createdAt - ft) 0) beat / beat) (s / beat + 1)) * beat := rfl
  rw [hst]
  have e1 : (s / beat + 1) * beat = s + beat := by
    rw [add_mul, div_mul_cancel₀ s hbne, one_mul]
  have e2 : (s / beat + 5/2) * beat = s + 5/2 * beat := by
    rw [add_mul, div_mul_cancel₀ s hbne]
  split_ifs with h
  · rw [e2]
    constructor <;> linarith
  · set q := _quantize (max (m.createdAt - ft) 0) beat / beat with hq
    have h1 : s / beat + 1 ≤ max q (s / beat + 1) := le_max_right _ _
    have h2 : max q (s / beat + 1) - s / beat ≤ 5/2 := not_lt.mp h
    have g1 : s + beat ≤ max q (s / beat + 1) * beat := by
      have := mul_le_mul_of_nonneg_right h1 hb.le
      rwa [e1] at this
    have g2 : max q (s / beat + 1) * beat ≤ s + 5/2 * beat := by
      have h2' : max q (s / beat + 1) ≤ s / beat + 5/2 := by linarith
      have := mul_le_mul_of_nonneg_right h2' hb.le
      rwa [e2] at this
    constructor <;> linarith

/-- The primary line emits exactly one note per input message. -/
lemma primary_line_length (fm : FreqModel) (beat ft : ℚ) :
    ∀ (msgs : List Message) (pIdx : Option ℤ) (pStart : Option ℚ),
      (_primary_line fm beat ft pIdx pStart msgs).length = msgs.length := by
  intro msgs
  induction msgs with
  | nil => intro pIdx pStart; rfl
  | cons m rest ih =>
    intro pIdx pStart
    simp only [_primary_line, List.length_cons, ih]

/-- Starting from a known previous start `s`, the chain of start gaps of the
primary line stays within `[beat, 2.5 * beat]`. -/
lemma primary_line_chain (fm : FreqModel) (beat ft : ℚ) (hb : 0 < beat) :
    ∀ (msgs : List Message) (pIdx : Option ℤ) (s : ℚ),
      List.Chain (fun a b : ℚ => a ≤ b ∧ beat ≤ b - a ∧ b - a ≤ (5/2) * beat) s
        ((_primary_line fm beat ft pIdx (some s) msgs).map NoteEvent.start) := by
  intro msgs
  induction msgs with
  | nil => intro pIdx s; exact List.Chain.nil
  | cons m rest ih =>
    intro pIdx s
    simp only [_primary_line, List.map_cons]
    have hg := message_note_gap fm m ft beat hb pIdx s
    rw [message_note_start_eq]
    exact List.Chain.cons ⟨by linarith [hg.1], hg.1, hg.2⟩ (ih _ _)

/-- C2: for every filtered input list, the primary line has one note per
message, and the mapped starts are non-decreasing with every consecutive
start difference between `1 * beat` and `2.5 * beat`. -/
theorem C2_primary_line (fm : FreqModel) (beat ft : ℚ) (hb : 0 < beat)
    (msgs : List Message) :
    (_primary_line fm beat ft none none msgs).length = msgs.length ∧
    List.Chain' (fun a b : ℚ => a ≤ b ∧ beat ≤ b - a ∧ b - a ≤ (5/2) * beat)
      ((_primary_line fm beat ft none none msgs).map NoteEvent.start) := by
  refine ⟨primary_line_length fm beat ft msgs none none, ?_⟩
  cases msgs with
  | nil => exact trivial
  | cons m rest =>
    simp only [_primary_line, List.map_cons]
    show List.Chain _ _ _
    rw [message_note_start_eq]
    exact primary_line_chain fm beat ft hb rest _ _

/-- A minimal kept message at timestamp 0. -/
def mW0 : Message := ⟨[], 0, false, none, false, 0⟩

/-- A minimal kept message at timestamp 1. -/
def mW1 : Message := ⟨[], 0, false, none, false, 1⟩

/-- C2 (witness): the length and spacing bounds hold at `beat = 1` on two
concrete messages one second apart. -/
theorem C2_primary_line_witness :
    (_primary_line fmW 1 0 none none [mW0, mW1]).length = [mW0, mW1].length ∧
    List.Chain' (fun a b : ℚ => a ≤ b ∧ (1 : ℚ) ≤ b - a ∧ b - a ≤ (5/2) * 1)
      ((_primary_line fmW 1 0 none none [mW0, mW1]).map NoteEvent.start) :=
  C2_primary_line fmW 1 0 one_pos [mW0, mW1]

/-! ## C4 and C6: duration normalizer -/

/-- The seed of a `foldl max` is a lower bound of the result. -/
lemma le_foldl_max (b : ℚ) (l : List ℚ) : b ≤ l.foldl max b := by
  induction l generalizing b with
  | nil => exact le_refl b
  | cons a l ih => exact le_trans (le_max_left b a) (ih (max b a))

/-- A common upper bound of the seed and all elements bounds a `foldl max`. -/
lemma foldl_max_le (c : ℚ) : ∀ (l : List ℚ) (b : ℚ), b ≤ c → (∀ x ∈ l, x ≤ c) →
    l.foldl max b ≤ c := by
  intro l
  induction l with
  | nil => intro b hb _; exact hb
  | cons a l ih =>
    intro b hb hl
    exact ih (max b a) (max_le hb (hl a (by simp))) fun x hx => hl x (by simp [hx])

/-- `foldl max` commutes with multiplication by a nonnegative factor. -/
lemma foldl_max_mul (c : ℚ) (hc : 0 ≤ c) :
    ∀ (l : List ℚ) (b : ℚ), (l.map fun x => x * c).foldl max (b * c) = l.foldl max b * c := by
  intro l
  induction l with
  | nil => intro b; rfl
  | cons a l ih =>
    intro b
    have : max (b * c) (a * c) = max b a * c := (max_mul_of_nonneg b a hc).symm
    simp only [List.map_cons, List.foldl_cons, this, ih]

/-- The head's span bounds `_span_max` from below. -/
lemma head_span_le_span_max (h : NoteEvent) (t : List NoteEvent) :
    h.start + h.duration ≤ _span_max (h :: t) :=
  le_foldl_max _ _

/-- When every note has nonpositive span, `_span_max` is nonpositive. -/
lemma span_max_nonpos (h : NoteEvent) (t : List NoteEvent)
    (hall : ∀ n ∈ h :: t, n.start + n.duration ≤ 0) : _span_max (h :: t) ≤ 0 := by
  refine foldl_max_le 0 _ _ (hall h (by simp)) ?_
  intro x hx
  rcases List.mem_map.mp hx with ⟨n, hn, rfl⟩
  exact hall n (by simp [hn])

/-- `_span_max` of a uniformly scaled list is the scaled `_span_max`,
for a nonnegative scale factor. -/
lemma span_max_map_scale (c : ℚ) (hc : 0 ≤ c) (h : NoteEvent) (t : List NoteEvent) :
    _span_max ((h :: t).map (scaleNote c)) = _span_max (h :: t) * c := by
  have hhead : (scaleNote c h).start + (scaleNote c h).duration =
      (h.start + h.duration) * c := by
    simp only [scaleNote]
    ring
  have hfun : (t.map (scaleNote c)).map (fun n => n.start + n.duration) =
      (t.map fun n => n.start + n.duration).map fun x => x * c := by
    induction t with
    | nil => rfl
    | cons a l ih =>
      simp only [List.map_cons, List.cons.injEq]
      constructor
      · show (scaleNote c a).start + (scaleNote c a).duration = (a.start + a.duration) * c
        simp only [scaleNote]
        ring
      · exact ih
  simp only [List.map_cons, _span_max, pyListMax, hhead, hfun]
  exact foldl_max_mul c hc _ _

/-- Scaling by 1 is the identity on a note. -/
lemma scaleNote_one (n : NoteEvent) : scaleNote 1 n = n := by
  cases n
  simp [scaleNote]

/-- Scaling a list by 1 is the identity. -/
lemma map_scaleNote_one (l : List NoteEvent) : l.map (scaleNote 1) = l := by
  induction l with
  | nil => rfl
  | cons a l ih => simp [scaleNote_one, ih]

/-- Closed form of `_scale_events` when the current total length is
positive: the notes are scaled by `clamp(L, min, max) / L` and the final
length is recomputed from the scaled notes. -/
lemma scale_events_pos (h : NoteEvent) (t : List NoteEvent) (min_d max_d : ℚ)
    (hpos : 0 < _span_max (h :: t)) :
    _scale_events (h :: t) min_d max_d =
      ((h :: t).map
        (scaleNote (max min_d (min (_span_max (h :: t)) max_d) / _span_max (h :: t))),
       _span_max ((h :: t).map
        (scaleNote (max min_d (min (_span_max (h :: t)) max_d) / _span_max (h :: t))))) := by
  have h1 : ¬ _span_max (h :: t) ≤ 0 := not_le.mpr hpos
  have h2 : _span_max (h :: t) ≠ 0 := ne_of_gt hpos
  have h3 : max min_d (min max_d (_span_max (h :: t))) =
      max min_d (min (_span_max (h :: t)) max_d) := by rw [min_comm]
  simp only [_scale_events, if_neg h1, if_neg h2, h3, ite_self]

/-- Closed form of `_scale_events` when the current total length is
nonpositive and the bounds are ordered: the scale degenerates to 1 and the
notes pass through unchanged. -/
lemma scale_events_nonpos (h : NoteEvent) (t : List NoteEvent) (min_d max_d : ℚ)
    (hnp : _span_max (h :: t) ≤ 0) (hmm : min_d ≤ max_d) :
    (_scale_events (h :: t) min_d max_d).1 = h :: t := by
  have h3 : max min_d (min min_d max_d) = min_d := by
    rw [min_eq_left hmm, max_self]
  have h4 : ¬ (min_d < min_d ∨ max_d < min_d) := by
    push_neg
    exact ⟨le_refl min_d, hmm⟩
  rcases eq_or_ne min_d 0 with h0 | h0
  · simp only [_scale_events, if_pos hnp, h3, if_neg h4, if_pos h0, map_scaleNote_one]
  · have h5 : min_d / min_d = 1 := div_self h0
    simp only [_scale_events, if_pos hnp, h3, if_neg h4, if_neg h0, h5, map_scaleNote_one]

/-- First counterexample note: start 0, duration 2. -/
def nCA : NoteEvent := ⟨0, 2, 440, 1/2, InstrumentWave.SINE⟩

/-- Second counterexample note: start 0, duration 1. -/
def nCB : NoteEvent := ⟨0, 1, 440, 1/2, InstrumentWave.SINE⟩

/-- C4 (counterexample): with notes of nonnegative start and positive
duration and ordered bounds `min = -4 ≤ max = -2`, the resulting total
length is `-1`, which does not lie in `[min, max]` — the claim fails for
ordered but negative bounds. -/
theorem C4_claim_counterexample :
    (∀ n ∈ [nCA, nCB], 0 ≤ n.start ∧ 0 < n.duration) ∧ ((-4 : ℚ) ≤ -2) ∧
    ¬ ((_scale_events [nCA, nCB] (-4) (-2)).2 ≤ -2) := by
  refine ⟨?_, by norm_num, ?_⟩
  · intro n hn
    fin_cases hn <;> norm_num [nCA, nCB]
  · have hval : (_scale_events [nCA, nCB] (-4) (-2)).2 = -1 := by
      simp only [_scale_events, _span_max, pyListMax, nCA, nCB, scaleNote,
        List.map_cons, List.map_nil, List.foldl_cons, List.foldl_nil]
      norm_num [max_def, min_def]
    rw [hval]
    norm_num

/-- C4 (amended): for every non-empty note list with nonnegative starts and
positive durations, and ordered bounds with a nonnegative upper bound, the
normalizer multiplies every start and duration by the single factor
`clamp(L, min, max) / L` (frequency, amplitude and instrument untouched),
and the resulting total length lies in `[min, max]`. -/
theorem C4_duration_normalizer (events : List NoteEvent) (min_d max_d : ℚ)
    (hne : events ≠ [])
    (hnotes : ∀ n ∈ events, 0 ≤ n.start ∧ 0 < n.duration)
    (hmm : min_d ≤ max_d) (hmax : 0 ≤ max_d) :
    (_scale_events events min_d max_d).1 =
      events.map (scaleNote (max min_d (min (_span_max events) max_d) / _span_max events)) ∧
    min_d ≤ (_scale_events events min_d max_d).2 ∧
    (_scale_events events min_d max_d).2 ≤ max_d := by
  obtain ⟨h, t, rfl⟩ : ∃ h t, events = h :: t := by
    cases events with
    | nil => exact absurd rfl hne
    | cons a l => exact ⟨a, l, rfl⟩
  have hhead := hnotes h (by simp)
  have hpos : 0 < _span_max (h :: t) :=
    lt_of_lt_of_le (by linarith [hhead.1, hhead.2]) (head_span_le_span_max h t)
  have hT0 : 0 ≤ max min_d (min (_span_max (h :: t)) max_d) :=
    le_trans (le_min hpos.le hmax) (le_max_right _ _)
  have hc : 0 ≤ max min_d (min (_span_max (h :: t)) max_d) / _span_max (h :: t) :=
    div_nonneg hT0 hpos.le
  have hspan2 : _span_max ((h :: t).map
      (scaleNote (max min_d (min (_span_max (h :: t)) max_d) / _span_max (h :: t)))) =
      max min_d (min (_span_max (h :: t)) max_d) := by
    rw [span_max_map_scale _ hc h t, mul_comm, div_mul_cancel₀ _ (ne_of_gt hpos)]
  rw [scale_events_pos h t min_d max_d hpos]
  refine ⟨rfl, ?_, ?_⟩
  · show min_d ≤ _span_max ((h :: t).map _)
    rw [hspan2]
    exact le_max_left _ _
  · show _span_max ((h :: t).map _) ≤ max_d
    rw [hspan2]
    exact max_le hmm (min_le_right _ _)

/-- A concrete note for witnesses: start 0, duration 1. -/
def nW : NoteEvent := ⟨0, 1, 440, 1/2, InstrumentWave.SINE⟩

/-- C4 (witness): the amended statement holds at the single note `nW`
with bounds `[2, 3]`. -/
theorem C4_duration_normalizer_witness :
    (_scale_events [nW] 2 3).1 =
      [nW].map (scaleNote (max 2 (min (_span_max [nW]) 3) / _span_max [nW])) ∧
    (2:ℚ) ≤ (_scale_events [nW] 2 3).2 ∧
    (_scale_events [nW] 2 3).2 ≤ 3 :=
  C4_duration_normalizer [nW] 2 3 (by simp)
    (by intro n hn; fin_cases hn; norm_num [nW]) (by norm_num) (by norm_num)

/-- C6 (counterexample): a note with negative duration defeats idempotence.
With notes `(start 0, dur 2)` and `(start 0, dur -1)`, total length `2 > 0`
and bounds `[-2, -1]`, the first application scales by `-1/2` but the second
application scales by `-2`, so the normalizer is not idempotent although the
total length was positive and the bounds ordered. -/
theorem C6_claim_counterexample :
    0 < _span_max [nCA, ⟨0, -1, 440, 1/2, InstrumentWave.SINE⟩] ∧ ((-2 : ℚ) ≤ -1) ∧
    (_scale_events
        (_scale_events [nCA, ⟨0, -1, 440, 1/2, InstrumentWave.SINE⟩] (-2) (-1)).1
        (-2) (-1)).1 ≠
      (_scale_events [nCA, ⟨0, -1, 440, 1/2, InstrumentWave.SINE⟩] (-2) (-1)).1 := by
  have h1 : (_scale_events [nCA, ⟨0, -1, 440, 1/2, InstrumentWave.SINE⟩] (-2) (-1)).1 =
      [⟨0, -1, 440, 1/2, InstrumentWave.SINE⟩, ⟨0, 1/2, 440, 1/2, InstrumentWave.SINE⟩] := by
    simp only [_scale_events, _span_max, pyListMax, nCA, scaleNote,
      List.map_cons, List.map_nil, List.foldl_cons, List.foldl_nil]
    norm_num [max_def, min_def]
  have h2 : (_scale_events
      [(⟨0, -1, 440, 1/2, InstrumentWave.SINE⟩ : NoteEvent),
       ⟨0, 1/2, 440, 1/2, InstrumentWave.SINE⟩] (-2) (-1)).1 =
      [⟨0, 2, 440, 1/2, InstrumentWave.SINE⟩, ⟨0, -1, 440, 1/2, InstrumentWave.SINE⟩] := by
    simp only [_scale_events, _span_max, pyListMax, scaleNote,
      List.map_cons, List.map_nil, List.foldl_cons, List.foldl_nil]
    norm_num [max_def, min_def]
  refine ⟨?_, by norm_num, ?_⟩
  · simp only [_span_max, pyListMax, nCA, List.map_cons, List.map_nil,
      List.foldl_cons, List.foldl_nil]
    norm_num [max_def]
  · rw [h1, h2]
    intro hcontra
    have := List.head_eq_of_cons_eq hcontra
    rw [NoteEvent.mk.injEq] at this
    norm_num at this

/-- C6 (amended): for every non-empty note list with nonnegative starts and
positive durations and any ordered bounds, the normalizer is idempotent —
reapplying it with the same bounds leaves every note unchanged — and when
the original total length already lies in `[min, max]` the scale factor is
1 and the operation is a no-op. -/
theorem C6_duration_normalizer_idempotent (events : List NoteEvent) (min_d max_d : ℚ)
    (hne : events ≠ [])
    (hnotes : ∀ n ∈ events, 0 ≤ n.start ∧ 0 < n.duration)
    (hmm : min_d ≤ max_d) :
    (_scale_events (_scale_events events min_d max_d).1 min_d max_d).1 =
      (_scale_events events min_d max_d).1 ∧
    (min_d ≤ _span_max events → _span_max events ≤ max_d →
      (_scale_events events min_d max_d).1 = events) := by
  obtain ⟨h, t, rfl⟩ : ∃ h t, events = h :: t := by
    cases events with
    | nil => exact absurd rfl hne
    | cons a l => exact ⟨a, l, rfl⟩
  have hhead := hnotes h (by simp)
  have hpos : 0 < _span_max (h :: t) :=
    lt_of_lt_of_le (by linarith [hhead.1, hhead.2]) (head_span_le_span_max h t)
  have hTmin : min_d ≤ max min_d (min (_span_max (h :: t)) max_d) := le_max_left _ _
  have hTmax : max min_d (min (_span_max (h :: t)) max_d) ≤ max_d :=
    max_le hmm (min_le_right _ _)
  constructor
  · rw [scale_events_pos h t min_d max_d hpos]
    show (_scale_events ((h :: t).map
        (scaleNote (max min_d (min (_span_max (h :: t)) max_d) / _span_max (h :: t))))
        min_d max_d).1 =
      (h :: t).map (scaleNote (max min_d (min (_span_max (h :: t)) max_d) / _span_max (h :: t)))
    rcases le_or_lt (max min_d (min (_span_max (h :: t)) max_d)) 0 with hT | hT
    · have hc : max min_d (min (_span_max (h :: t)) max_d) / _span_max (h :: t) ≤ 0 :=
        div_nonpos_of_nonpos_of_nonneg hT hpos.le
      rw [List.map_cons]
      apply scale_events_nonpos _ _ min_d max_d ?_ hmm
      apply span_max_nonpos
      intro n hn
      have key : ∀ m : NoteEvent, m ∈ h :: t →
          (scaleNote (max min_d (min (_span_max (h :: t)) max_d) / _span_max (h :: t)) m).start +
          (scaleNote (max min_d (min (_span_max (h :: t)) max_d) / _span_max (h :: t)) m).duration ≤ 0 := by
        intro m hm
        have hmn := hnotes m hm
        have hsp : (0 : ℚ) ≤ m.start + m.duration := by linarith [hmn.1, hmn.2]
        show m.start * _ + m.duration * _ ≤ 0
        have : (m.start + m.duration) *
            (max min_d (min (_span_max (h :: t)) max_d) / _span_max (h :: t)) ≤ 0 :=
          mul_nonpos_iff.mpr (Or.inl ⟨hsp, hc⟩)
        linarith [this]
      rcases List.mem_cons.mp hn with rfl | hmem
      · exact key h (by simp)
      · obtain ⟨m, hm, rfl⟩ := List.mem_map.mp hmem
        exact key m (by simp [hm])
    · have hc0 : (0 : ℚ) ≤ max min_d (min (_span_max (h :: t)) max_d) / _span_max (h :: t) :=
        div_nonneg hT.le hpos.le
      have hspan2 : _span_max ((h :: t).map
          (scaleNote (max min_d (min (_span_max (h :: t)) max_d) / _span_max (h :: t)))) =
          max min_d (min (_span_max (h :: t)) max_d) := by
        rw [span_max_map_scale _ hc0 h t, mul_comm, div_mul_cancel₀ _ (ne_of_gt hpos)]
      have hpos2 : 0 < _span_max
          (scaleNote (max min_d (min (_span_max (h :: t)) max_d) / _span_max (h :: t)) h ::
           t.map (scaleNote (max min_d (min (_span_max (h :: t)) max_d) / _span_max (h :: t)))) := by
        rw [← List.map_cons, hspan2]
        exact hT
      rw [List.map_cons, scale_events_pos _ _ min_d max_d hpos2]
      show List.map _ _ = _
      rw [← List.map_cons, hspan2, min_eq_left hTmax, max_eq_right hTmin,
        div_self (ne_of_gt hT), map_scaleNote_one]
  · intro hmin hmax2
    rw [scale_events_pos h t min_d max_d hpos]
    show (h :: t).map (scaleNote _) = h :: t
    rw [min_eq_left hmax2, max_eq_right hmin, div_self (ne_of_gt hpos), map_scaleNote_one]

/-- C6 (witness): idempotence and the in-range no-op hold at the single
note `nW` with bounds `[2, 3]`. -/
theorem C6_duration_normalizer_idempotent_witness :
    (_scale_events (_scale_events [nW] 2 3).1 2 3).1 = (_scale_events [nW] 2 3).1 ∧
    ((2:ℚ) ≤ _span_max [nW] → _span_max [nW] ≤ 3 → (_scale_events [nW] 2 3).1 = [nW]) :=
  C6_duration_normalizer_idempotent [nW] 2 3 (by simp)
    (by intro n hn; fin_cases hn; norm_num [nW]) (by norm_num)

/-! ## C7: gap filler -/

/-- When the gap filler fires for a consecutive pair `(a, b)`, the gap
exceeds `1.4 * beat` and the filler's start is strictly between the
neighbours' starts. -/
lemma gap_filler_between (fm : FreqModel) (beat : ℚ) (hb : 0 < beat)
    (a b f : NoteEvent) (hf : _gap_filler fm beat a b = some f) :
    beat * (7/5) < b.start - a.start ∧ a.start < f.start ∧ f.start < b.start := by
  rw [_gap_filler] at hf
  split_ifs at hf with hgap
  · have hfeq := Option.some.inj hf
    have hstart : f.start =
        min (max (a.start + (b.start - a.start) * (55/100)) (a.start + beat * (35/100)))
          (b.start - beat * (35/100)) := by
      rw [← hfeq]
    refine ⟨hgap, ?_, ?_⟩
    · have h1 : a.start + beat * (35/100) ≤
          min (max (a.start + (b.start - a.start) * (55/100)) (a.start + beat * (35/100)))
            (b.start - beat * (35/100)) :=
        le_min (le_max_right _ _) (by linarith)
      rw [hstart]
      linarith
    · have h2 : min (max (a.start + (b.start - a.start) * (55/100)) (a.start + beat * (35/100)))
          (b.start - beat * (35/100)) ≤ b.start - beat * (35/100) := min_le_right _ _
      rw [hstart]
      linarith

/-- Provenance of the pair-walking loop: every emitted note is an input note
or the output of `_gap_filler` on some consecutive input pair. -/
lemma fill_gaps_loop_mem (fm : FreqModel) (beat : ℚ) :
    ∀ (t : List NoteEvent) (prev f : NoteEvent),
      f ∈ _fill_gaps_loop fm beat prev t →
      f ∈ t ∨ ∃ i a b, (prev :: t)[i]? = some a ∧ (prev :: t)[i + 1]? = some b ∧
        _gap_filler fm beat a b = some f := by
  intro t
  induction t with
  | nil =>
    intro prev f hf
    simp [_fill_gaps_loop] at hf
  | cons curr rest ih =>
    intro prev f hf
    rw [_fill_gaps_loop] at hf
    cases hgf : _gap_filler fm beat prev curr with
    | some filler =>
      rw [hgf] at hf
      have hf' : f = filler ∨ f = curr ∨ f ∈ _fill_gaps_loop fm beat curr rest := by
        simpa using hf
      rcases hf' with rfl | rfl | hf3
      · exact Or.inr ⟨0, prev, curr, by simp, by simp, hgf⟩
      · exact Or.inl (by simp)
      · rcases ih curr f hf3 with hmem | ⟨i, a, b, ha, hb2, hfil⟩
        · exact Or.inl (by simp [hmem])
        · exact Or.inr ⟨i + 1, a, b, by simpa using ha, by simpa using hb2, hfil⟩
    | none =>
      rw [hgf] at hf
      have hf' : f = curr ∨ f ∈ _fill_gaps_loop fm beat curr rest := by simpa using hf
      rcases hf' with rfl | hf3
      · exact Or.inl (by simp)
      · rcases ih curr f hf3 with hmem | ⟨i, a, b, ha, hb2, hfil⟩
        · exact Or.inl (by simp [hmem])
        · exact Or.inr ⟨i + 1, a, b, by simpa using ha, by simpa using hb2, hfil⟩

/-- C7: on a start-sorted note list with positive beat, every note of the
gap-filled output is either an input note, or a filler attached to a
consecutive input pair whose start gap exceeds `1.4 * beat`, with the
filler's start strictly between the two neighbours' starts. -/
theorem C7_gap_filler (fm : FreqModel) (notes : List NoteEvent) (beat : ℚ)
    (hb : 0 < beat)
    (_hsorted : List.Chain' (fun a b : NoteEvent => a.start ≤ b.start) notes)
    (f : NoteEvent) (hf : f ∈ _fill_gaps fm notes beat) :
    f ∈ notes ∨
    ∃ i a b, notes[i]? = some a ∧ notes[i + 1]? = some b ∧
      beat * (7/5) < b.start - a.start ∧ a.start < f.start ∧ f.start < b.start := by
  cases notes with
  | nil => simp [_fill_gaps] at hf
  | cons h t =>
    rw [_fill_gaps] at hf
    have hf2 : f ∈ h :: _fill_gaps_loop fm beat h t :=
      (List.mergeSort_perm _ _).mem_iff.mp hf
    rcases List.mem_cons.mp hf2 with rfl | hf3
    · exact Or.inl (by simp)
    · rcases fill_gaps_loop_mem fm beat t h f hf3 with hmem | ⟨i, a, b, ha, hb2, hfil⟩
      · exact Or.inl (by simp [hmem])
      · obtain ⟨hgap, hlo, hhi⟩ := gap_filler_between fm beat hb a b f hfil
        exact Or.inr ⟨i, a, b, ha, hb2, hgap, hlo, hhi⟩

/-- The gap filler is the identity on a singleton list. -/
lemma fill_gaps_single (fm : FreqModel) (n : NoteEvent) (beat : ℚ) :
    _fill_gaps fm [n] beat = [n] := by
  rw [_fill_gaps]
  simp [_fill_gaps_loop]

/-- C7 (witness): the provenance statement holds for the note `nW` inside
the gap-filled singleton list at `beat = 1`. -/
theorem C7_gap_filler_witness :
    nW ∈ [nW] ∨
    ∃ i a b, [nW][i]? = some a ∧ [nW][i + 1]? = some b ∧
      (1:ℚ) * (7/5) < b.start - a.start ∧ a.start < nW.start ∧ nW.start < b.start :=
  C7_gap_filler fmW [nW] 1 (by norm_num) (by simp) nW
    (by rw [fill_gaps_single]; simp)

/-! ## C9: intensity drives amplitude -/

/-- A character that fails the predicate survives `dropWhile`. -/
lemma mem_dropWhile_of_neg {p : Char → Bool} {c : Char} (hc : p c = false) :
    ∀ {l : List Char}, c ∈ l → c ∈ l.dropWhile p := by
  intro l
  induction l with
  | nil => intro h; exact absurd h (by simp)
  | cons a t ih =>
    intro h
    rw [List.dropWhile_cons]
    by_cases hpa : p a
    · rw [if_pos hpa]
      rcases List.mem_cons.mp h with rfl | h2
      · rw [hpa] at hc; cases hc
      · exact ih h2
    · rw [if_neg hpa]
      exact h

/-- A non-whitespace character of the content survives `pyStrip`. -/
lemma mem_pyStrip {c : Char} (hc : pyIsSpace c = false) {l : List Char}
    (h : c ∈ l) : c ∈ pyStrip l := by
  rw [pyStrip, List.mem_reverse]
  exact mem_dropWhile_of_neg hc (by
    rw [List.mem_reverse]
    exact mem_dropWhile_of_neg hc h)

/-- Every character of `pyStrip l` is a character of `l`. -/
lemma pyStrip_subset {c : Char} {l : List Char} (h : c ∈ pyStrip l) : c ∈ l := by
  rw [pyStrip, List.mem_reverse] at h
  have h2 := (List.dropWhile_sublist pyIsSpace).mem h
  rw [List.mem_reverse] at h2
  exact (List.dropWhile_sublist pyIsSpace).mem h2

/-- An uppercase or punctuation character is not whitespace. -/
lemma not_space_of_upper_or_punct {c : Char}
    (h : pyIsUpper c = true ∨ pyIsPunct c = true) : pyIsSpace c = false := by
  rcases h with h | h <;>
    · simp only [pyIsUpper, pyIsPunct, Bool.and_eq_true, Bool.or_eq_true,
        decide_eq_true_eq] at h
      simp only [pyIsSpace, Bool.or_eq_false_iff, Bool.and_eq_false_iff,
        decide_eq_false_iff_not, not_le]
      omega

/-- Text with no uppercase and no punctuation characters has zero weight. -/
lemma caps_weight_zero (text : List Char)
    (h : ∀ c ∈ text, pyIsUpper c = false ∧ pyIsPunct c = false) :
    _caps_and_punct_weight text = 0 := by
  rw [_caps_and_punct_weight]
  by_cases he : text.isEmpty
  · rw [if_pos he]
  · rw [if_neg he]
    have h1 : text.filter pyIsUpper = [] :=
      List.filter_eq_nil_iff.mpr fun a ha => by simp [(h a ha).1]
    have h2 : text.filter pyIsPunct = [] :=
      List.filter_eq_nil_iff.mpr fun a ha => by simp [(h a ha).2]
    rw [h1, h2]
    norm_num

/-- The weight never exceeds 1. -/
lemma caps_weight_le_one (text : List Char) : _caps_and_punct_weight text ≤ 1 := by
  rw [_caps_and_punct_weight]
  by_cases he : text.isEmpty
  · rw [if_pos he]; norm_num
  · rw [if_neg he]; exact min_le_right _ _

/-- Text containing an uppercase or punctuation character has positive
weight. -/
lemma caps_weight_pos (text : List Char)
    (h : ∃ c ∈ text, pyIsUpper c = true ∨ pyIsPunct c = true) :
    0 < _caps_and_punct_weight text := by
  obtain ⟨c, hc, hcu⟩ := h
  have hne : text.isEmpty = false := by
    cases text with
    | nil => exact absurd hc (by simp)
    | cons a t => rfl
  rw [_caps_and_punct_weight, hne]
  simp only [Bool.false_eq_true, if_false]
  have hden : (0 : ℚ) < ((max text.length 1 : ℕ) : ℚ) := by
    have : (1 : ℕ) ≤ max text.length 1 := le_max_right _ _
    exact_mod_cast lt_of_lt_of_le Nat.zero_lt_one this
  have hcapsnn : (0 : ℚ) ≤ ((text.filter pyIsUpper).length : ℚ) := Nat.cast_nonneg _
  have hpunctnn : (0 : ℚ) ≤ ((text.filter pyIsPunct).length : ℚ) := Nat.cast_nonneg _
  refine lt_min (div_pos ?_ hden) one_pos
  rcases hcu with hu | hp
  · have hmem : c ∈ text.filter pyIsUpper := List.mem_filter.mpr ⟨hc, hu⟩
    have : (1 : ℚ) ≤ ((text.filter pyIsUpper).length : ℚ) := by
      exact_mod_cast List.length_pos.mpr (List.ne_nil_of_mem hmem)
    nlinarith
  · have hmem : c ∈ text.filter pyIsPunct := List.mem_filter.mpr ⟨hc, hp⟩
    have : (1 : ℚ) ≤ ((text.filter pyIsPunct).length : ℚ) := by
      exact_mod_cast List.length_pos.mpr (List.ne_nil_of_mem hmem)
    nlinarith

/-- The amplitude recorded by `_message_to_note`, in closed form. -/
lemma message_note_amplitude (fm : FreqModel) (m : Message) (ft beat : ℚ)
    (pIdx : Option ℤ) (pStart : Option ℚ) :
    (_message_to_note fm m ft beat pIdx pStart).1.amplitude =
      min (28/100 + _caps_and_punct_weight (pyStrip m.content) * (28/100)) (9/10) := rfl

/-- C9: a message containing at least one uppercase or punctuation
character maps to a strictly greater amplitude than an all-lowercase,
unpunctuated message of the same length, which receives exactly the base
amplitude `0.28`. -/
theorem C9_intensity_amplitude (fm : FreqModel) (m1 m2 : Message)
    (ft1 ft2 beat1 beat2 : ℚ) (pi1 pi2 : Option ℤ) (ps1 ps2 : Option ℚ)
    (hcaps : ∃ c ∈ m1.content, pyIsUpper c = true ∨ pyIsPunct c = true)
    (hlower : ∀ c ∈ m2.content, pyIsUpper c = false ∧ pyIsPunct c = false)
    (_hlen : m1.content.length = m2.content.length) :
    (_message_to_note fm m2 ft2 beat2 pi2 ps2).1.amplitude = 28/100 ∧
    (_message_to_note fm m2 ft2 beat2 pi2 ps2).1.amplitude <
      (_message_to_note fm m1 ft1 beat1 pi1 ps1).1.amplitude := by
  have hw2 : _caps_and_punct_weight (pyStrip m2.content) = 0 :=
    caps_weight_zero _ fun c hc => hlower c (pyStrip_subset hc)
  have hw1 : 0 < _caps_and_punct_weight (pyStrip m1.content) := by
    obtain ⟨c, hc, hcu⟩ := hcaps
    exact caps_weight_pos _
      ⟨c, mem_pyStrip (not_space_of_upper_or_punct hcu) hc, hcu⟩
  have hw1le := caps_weight_le_one (pyStrip m1.content)
  have ha2 : (_message_to_note fm m2 ft2 beat2 pi2 ps2).1.amplitude = 28/100 := by
    rw [message_note_amplitude, hw2]
    norm_num
  have ha1 : (_message_to_note fm m1 ft1 beat1 pi1 ps1).1.amplitude =
      28/100 + _caps_and_punct_weight (pyStrip m1.content) * (28/100) := by
    rw [message_note_amplitude, min_eq_left (by nlinarith)]
  refine ⟨ha2, ?_⟩
  rw [ha1, ha2]
  nlinarith

/-- Witness message with one uppercase character. -/
def mCaps : Message := ⟨[Char.ofNat 65], 0, false, none, false, 0⟩

/-- Witness message with one lowercase character. -/
def mLower : Message := ⟨[Char.ofNat 97], 0, false, none, false, 0⟩

/-- C9 (witness): the strict amplitude comparison holds between the
concrete one-character messages `"A"` and `"a"`. -/
theorem C9_intensity_amplitude_witness :
    (_message_to_note fmW mLower 0 1 none none).1.amplitude = 28/100 ∧
    (_message_to_note fmW mLower 0 1 none none).1.amplitude <
      (_message_to_note fmW mCaps 0 1 none none).1.amplitude :=
  C9_intensity_amplitude fmW mCaps mLower 0 0 1 1 none none none none
    ⟨Char.ofNat 65, by simp [mCaps], Or.inl (by decide)⟩
    (by
      intro c hc
      simp only [mLower, List.mem_singleton] at hc
      subst hc
      exact ⟨by decide, by decide⟩)
    rfl

/-! ## C10: whitespace-only message -/

/-- All-whitespace content strips to the empty list. -/
lemma pyStrip_all_space (l : List Char) (h : ∀ c ∈ l, pyIsSpace c = true) :
    pyStrip l = [] := by
  have h1 : l.dropWhile pyIsSpace = [] := List.dropWhile_eq_nil_iff.mpr h
  rw [pyStrip, h1]
  rfl

/-- C10: a non-empty all-whitespace message from a regular author is kept by
the filter, and its primary note has the scale table's midpoint pitch index
(`length // 2`) and duration exactly `beat` (not `beat * 1.1`). -/
theorem C10_whitespace_message (fm : FreqModel) (msg : Message) (ft beat : ℚ)
    (hb : 0 < beat) (hne : msg.content ≠ [])
    (hws : ∀ c ∈ msg.content, pyIsSpace c = true)
    (hbot : msg.authorBot = false) (hweb : pyTruthy msg.webhookId = false)
    (hsys : msg.isSystem = false) :
    _keeps msg = true ∧
    (_message_to_note fm msg ft beat none none).2.1 =
      ((SCALE_MIDI_NOTES.length / 2 : ℕ) : ℤ) ∧
    (_message_to_note fm msg ft beat none none).1.duration = beat ∧
    (_message_to_note fm msg ft beat none none).1.duration ≠ beat * (11/10) := by
  have hstrip : pyStrip msg.content = [] := pyStrip_all_space _ hws
  have hkeep : _keeps msg = true := by
    rw [_keeps, hbot, hweb, hsys]
    simp [hne]
  have hidx : (_message_to_note fm msg ft beat none none).2.1 =
      ((_content_pitch_index (pyStrip msg.content) : ℕ) : ℤ) := rfl
  have hdur : (_message_to_note fm msg ft beat none none).1.duration =
      _note_duration msg beat := rfl
  have hdurbeat : _note_duration msg beat = beat := by
    rw [_note_duration, hstrip]
    simp
  refine ⟨hkeep, ?_, ?_, ?_⟩
  · rw [hidx, hstrip]
    rfl
  · rw [hdur, hdurbeat]
  · rw [hdur, hdurbeat]
    intro heq
    have : beat * (1/10) = 0 := by linarith
    have hb10 : beat * (1/10) > 0 := by positivity
    linarith

/-- Witness message consisting of a single space character. -/
def mSpace : Message := ⟨[Char.ofNat 32], 0, false, none, false, 0⟩

/-- C10 (witness): the statement holds at the one-space message with
`beat = 1`. -/
theorem C10_whitespace_message_witness :
    _keeps mSpace = true ∧
    (_message_to_note fmW mSpace 0 1 none none).2.1 =
      ((SCALE_MIDI_NOTES.length / 2 : ℕ) : ℤ) ∧
    (_message_to_note fmW mSpace 0 1 none none).1.duration = 1 ∧
    (_message_to_note fmW mSpace 0 1 none none).1.duration ≠ 1 * (11/10) :=
  C10_whitespace_message fmW mSpace 0 1 one_pos (by simp [mSpace])
    (by
      intro c hc
      simp only [mSpace, List.mem_singleton] at hc
      subst hc
      decide)
    rfl rfl rfl
